import Mathlib

set_option autoImplicit false

/-!
Verification of the Open3D bulk hashmap and tensor point-cloud layer.

The repository provides the public hashmap facade (`Hashmap.h`), its tests
(`tests/core/Hashmap.cpp`) and the tensor point cloud (`tgeometry/PointCloud.cpp`).
The device hashmap implementation itself (slab allocator, bucket table, `Unique`)
is declared but its translation unit is absent, so the hashmap operations are
modelled from the specification (§3-§4): records live in a fixed-capacity slab of
slots, a bulk call's outcome is consistent with some linearization of its
per-index operations, and we fix the index-order linearization.  Buckets and the
byte-wise hash only affect scheduling, never the observable per-index outcome,
so the model elides them; key equality (`memcmp` over `dsize_key` bytes in the
source) is decidable equality on the key type.
-/

namespace Open3D

namespace HM

/-- Modelled from the spec: the hashmap state.  `slots` is the slab: a
fixed-capacity pool of records, `none` marking a free slot.  A record is a key
together with its value region; `Activate` creates a record whose value region
is uninitialized, modelled as `none`.  `gen` is bumped by `Rehash`, which is how
the model expresses that rehashing invalidates previously issued iterators. -/
structure State (K V : Type) where
  gen : Nat
  slots : List (Option (K × Option V))
deriving DecidableEq

/-- An iterator handle: the generation at issue time and the slab slot index. -/
abbrev Iter := Nat × Nat

variable {K V : Type} [DecidableEq K]

/-- A freshly constructed hashmap: all `capacity` slots free. -/
def fresh (K V : Type) (capacity : Nat) : State K V :=
  ⟨0, List.replicate capacity none⟩

/-- The slab capacity (`init_capacity` of the constructor). -/
def capacity (st : State K V) : Nat := st.slots.length

/-- The key stored in a slot, if the slot is occupied. -/
def slotKey : Option (K × Option V) → Option K
  | some kv => some kv.1
  | none => none

/-- Index of the first element satisfying `p`. -/
def firstIdx {α : Type} (p : α → Bool) : List α → Option Nat
  | [] => none
  | a :: l => if p a then some 0 else (firstIdx p l).map (· + 1)

/-- Walk the table for a record whose key equals `k` (memcmp equality). -/
def findSlot (st : State K V) (k : K) : Option Nat :=
  firstIdx (fun s => decide (slotKey s = some k)) st.slots

/-- Slab `claim`: pop a free slot from the slab, if one is available. -/
def freeSlot (st : State K V) : Option Nat :=
  firstIdx (fun s => s.isNone) st.slots

/-- Current `Size()`: the number of live records. -/
def size (st : State K V) : Nat := st.slots.countP (fun s => s.isSome)

/-- The keys of the live records. -/
def liveKeys (st : State K V) : List K := st.slots.filterMap slotKey

/-- The live records, packed in slot order. -/
def records (st : State K V) : List (K × Option V) := st.slots.filterMap id

/-- Overwrite one slab slot. -/
def setSlot (st : State K V) (j : Nat) (s : Option (K × Option V)) : State K V :=
  ⟨st.gen, st.slots.set j s⟩

/-- Per-index `Insert`/`Activate` step (§4.C): walk the chain for `k`; if found,
report the existing record with `mask = false`; otherwise claim a slot, store
the record and report it with `mask = true`; on slab exhaustion report
`mask = false` with no iterator. -/
def insertOne (st : State K V) (k : K) (v : Option V) :
    State K V × (Option Iter × Bool) :=
  match findSlot st k with
  | some j => (st, (some (st.gen, j), false))
  | none =>
    match freeSlot st with
    | some j => (setSlot st j (some (k, v)), (some (st.gen, j), true))
    | none => (st, (none, false))

/-- Bulk insertion of key/value-region pairs, linearized in index order. -/
def bulkIns (st : State K V) (kvs : List (K × Option V)) :
    State K V × List (Option Iter × Bool) :=
  match kvs with
  | [] => (st, [])
  | kv :: rest =>
    let r := insertOne st kv.1 kv.2
    let rr := bulkIns r.1 rest
    (rr.1, r.2 :: rr.2)

/-- Bulk `Insert`: every index carries a key and an initialized value. -/
def bulkInsert (st : State K V) (kvs : List (K × V)) :
    State K V × List (Option Iter × Bool) :=
  bulkIns st (kvs.map (fun kv => (kv.1, some kv.2)))

/-- Bulk `Activate`: as `Insert` but the value region is left uninitialized. -/
def bulkActivate (st : State K V) (ks : List K) :
    State K V × List (Option Iter × Bool) :=
  bulkIns st (ks.map (fun k => (k, none)))

/-- Per-index `Find` step: on hit report the record's address with
`mask = true`; on miss `mask = false`. -/
def findOne (st : State K V) (k : K) : Option Iter × Bool :=
  match findSlot st k with
  | some j => (some (st.gen, j), true)
  | none => (none, false)

/-- Bulk `Find`; reads only, so every index sees the same state. -/
def bulkFind (st : State K V) (ks : List K) : List (Option Iter × Bool) :=
  ks.map (findOne st)

/-- Per-index `Erase` step: on hit unlink the record and release its slot with
`mask = true`; on miss `mask = false`. -/
def eraseOne (st : State K V) (k : K) : State K V × Bool :=
  match findSlot st k with
  | some j => (setSlot st j none, true)
  | none => (st, false)

/-- Bulk `Erase`, linearized in index order. -/
def bulkErase (st : State K V) (ks : List K) : State K V × List Bool :=
  match ks with
  | [] => (st, [])
  | k :: rest =>
    let r := eraseOne st k
    let rr := bulkErase r.1 rest
    (rr.1, r.2 :: rr.2)

/-- An iterator is valid while its generation is current and its slot is live. -/
def validIter (st : State K V) (it : Iter) : Bool :=
  it.1 == st.gen && (st.slots.getD it.2 none).isSome

/-- Dereference an iterator (the record it addresses). -/
def derefIter (st : State K V) (it : Iter) : Option (K × Option V) :=
  if validIter st it then st.slots.getD it.2 none else none

/-- One index of `UnpackIterators`: copy out the addressed record. -/
def unpackOne (st : State K V) (o : Option Iter) : Option (K × Option V) :=
  o.bind (derefIter st)

/-- Bulk `UnpackIterators` over an iterator array. -/
def unpackIters (st : State K V) (its : List (Option Iter)) :
    List (Option (K × Option V)) :=
  its.map (unpackOne st)

/-- One index of `AssignIterators`: overwrite the value region of the record
addressed by `it`, leaving the key region untouched. -/
def assignOne (st : State K V) (it : Iter) (v : V) : State K V :=
  match st.slots.getD it.2 none with
  | some kv => setSlot st it.2 (some (kv.1, some v))
  | none => st

/-- Protocol of `Rehash(m)` (§4.D): collect the live records, build a new table with at
least `size` capacity (over-provisioned to `max (2*size) m` as the spec
suggests), and bulk-insert the collected records; the generation is bumped. -/
def rehash (st : State K V) (m : Nat) : State K V :=
  (bulkIns ⟨st.gen + 1, List.replicate (max (2 * size st) m) none⟩ (records st)).1

/-- The mask vector the spec promises for a batch of keys inserted over a set of
already-seen keys: `true` exactly at a key's first occurrence, and only if the
key was not seen before the call. -/
def firstOccMaskFrom (seen : List K) : List K → List Bool
  | [] => []
  | k :: ks => decide (k ∉ seen) :: firstOccMaskFrom (k :: seen) ks

/-- A bulk mutating call, for stating invariants over call sequences. -/
inductive Op (K V : Type) where
  | insert (kvs : List (K × V))
  | activate (ks : List K)
  | erase (ks : List K)

/-- Apply one bulk call. -/
def applyOp (st : State K V) : Op K V → State K V
  | .insert kvs => (bulkInsert st kvs).1
  | .activate ks => (bulkActivate st ks).1
  | .erase ks => (bulkErase st ks).1

/-- Run a sequence of bulk calls. -/
def runOps (st : State K V) : List (Op K V) → State K V
  | [] => st
  | op :: ops => runOps (applyOp st op) ops

end HM

namespace PC

/-- Points are `(x, y, z)` coordinate triples.  The C++ points tensor is
floating-point; the embedding uses exact rationals, which represent every
`Float32` value exactly. -/
abbrev Vec3 := ℚ × ℚ × ℚ

/-- Integer voxel keys (`int64` 3-vectors). -/
abbrev IVec3 := ℤ × ℤ × ℤ

/-- Modelled from the spec: the elementwise `Tensor::To(Dtype::Int64)` cast
(its translation unit is not under src/).  The spec pins it only as the dtype
cast of `points / voxel_size` to `int64`; a C++ floating-to-integer conversion
(`static_cast<int64_t>`) discards the fractional part, i.e. rounds toward
zero: floor on nonnegative input, ceiling on negative input. -/
def toInt64 (q : ℚ) : ℤ := if 0 ≤ q then ⌊q⌋ else ⌈q⌉

/-- From the source (PointCloud.cpp:175-181): the voxel key of one point,
`(p / voxel_size).To(Int64)`, componentwise. -/
def quantize (voxel_size : ℚ) (p : Vec3) : IVec3 :=
  (toInt64 (p.1 / voxel_size), toInt64 (p.2.1 / voxel_size), toInt64 (p.2.2 / voxel_size))

/-- The quantization claimed by the spec, `floor(p / voxel_size)` componentwise;
stated from the spec's words for comparison with the source's `quantize`. -/
def quantizeFloor (voxel_size : ℚ) (p : Vec3) : IVec3 :=
  (⌊p.1 / voxel_size⌋, ⌊p.2.1 / voxel_size⌋, ⌊p.2.2 / voxel_size⌋)

/-- Modelled from the spec (§4.F): `Unique` builds a hashmap with
`capacity ≈ N`, inserts every key with its input index as value, and returns
the original keys array together with the insert masks as the keep-mask. -/
def unique (keys : List IVec3) : List IVec3 × List Bool :=
  (keys,
    (HM.bulkInsert (HM.fresh IVec3 Nat keys.length)
      (keys.zip (List.range keys.length))).2.map (fun r => r.2))

/-- Boolean-mask row selection, `Tensor::IndexGet({masks})`: keep the rows
whose mask bit is true. -/
def maskSelect {α : Type} (xs : List α) (mask : List Bool) : List α :=
  ((xs.zip mask).filter (fun t => t.2)).map (fun t => t.1)

/-- The `Int64` to `Float32` cast of a kept voxel key (exact `ℤ → ℚ` cast). -/
def iCast (k : IVec3) : Vec3 := ((k.1 : ℚ), (k.2.1 : ℚ), (k.2.2 : ℚ))

/-- From the source (PointCloud.cpp:170-219): the "points" entry of
`VoxelDownSample` — quantize, `Unique`, select the kept rows of the quantized
`int64` coordinates, cast to `Float32`.  Attribute channels are filtered by the
same mask and play no part in the claims. -/
def voxelDownSample (pts : List Vec3) (voxel_size : ℚ) : List Vec3 :=
  (maskSelect (unique (pts.map (quantize voxel_size))).1
    (unique (pts.map (quantize voxel_size))).2).map iCast

/-- First-occurrence deduplication relative to already-seen elements
(reference definition for stating what the keep-mask selection computes). -/
def dedupFirstAux {α : Type} [DecidableEq α] (seen : List α) : List α → List α
  | [] => []
  | a :: l => if a ∈ seen then dedupFirstAux seen l else a :: dedupFirstAux (a :: seen) l

/-- Keep the first occurrence of every element of `l`. -/
def dedupFirst {α : Type} [DecidableEq α] (l : List α) : List α := dedupFirstAux [] l

/-- A tensor of points: `N` rows of coordinates (`(N, width)`, row-major). -/
structure PtTensor where
  rows : List (List ℚ)
deriving DecidableEq

/-- Shape of a points tensor, `(N, width)` — `Tensor::GetShape()`. -/
def PtTensor.shape (t : PtTensor) : List Nat :=
  [t.rows.length, (t.rows.headD []).length]

/-- The point dictionary (`std::unordered_map<std::string, TensorList>`). -/
abbrev PointDict := List (String × PtTensor)

/-- From the source (PointCloud.cpp:45-54): the tensor constructor errors
unless `shape[1] == 3`, then stores the points under `"points"`. -/
def pointCloudFromTensor (t : PtTensor) : Except String PointDict :=
  if t.shape.getD 1 0 ≠ 3 then
    Except.error "PointCloud must be constructed from (N, 3) points."
  else
    Except.ok [("points", t)]

/-- From the source (PointCloud.cpp:56-78): the dictionary constructor requires
a `"points"` entry and errors unless `shape[0] == 3`.  Modelled from the spec:
`TensorList::GetShape` is not under src/; the spec (§9b) reads the checked
shape as the same `(N, 3)` points shape the tensor constructor sees, which is
exactly what makes the `shape[0]` test inconsistent.  The per-entry device
check is orthogonal to the shape claim (one shared device is assumed). -/
def pointCloudFromDict (d : PointDict) : Except String PointDict :=
  match d.lookup "points" with
  | none => Except.error "PointCloud must include key \"points\"."
  | some t =>
    if t.shape.getD 0 0 ≠ 3 then
      Except.error "PointCloud must be constructed from (N, 3) points."
    else
      Except.ok d

/-- From the source (PointCloud.cpp:80-87): `operator[]` is a `find`; a missing
key raises (`LogError` throws) and inserts nothing, so the dictionary comes
back unchanged in both cases; a present key yields the stored list. -/
def opIndex (pc : PointDict) (key : String) : Except String PtTensor × PointDict :=
  match pc.lookup key with
  | none => (Except.error ("Unknown key " ++ key ++ " in PointCloud point_dict_."), pc)
  | some t => (Except.ok t, pc)

end PC

namespace HM

variable {K V : Type} [DecidableEq K]

/-! ### Helper lemmas about `firstIdx` -/

theorem firstIdx_cons {α : Type} (p : α → Bool) (a : α) (l : List α) :
    firstIdx p (a :: l) = if p a then some 0 else (firstIdx p l).map (· + 1) := rfl

theorem firstIdx_eq_none_iff {α : Type} (p : α → Bool) (l : List α) :
    firstIdx p l = none ↔ ∀ a ∈ l, p a = false := by
  induction l with
  | nil => simp [firstIdx]
  | cons a l ih =>
    by_cases h : p a
    · simp [firstIdx, h]
    · simp [firstIdx, h, Option.map_eq_none', ih]

theorem firstIdx_spec {α : Type} (p : α → Bool) (l : List α) (j : Nat)
    (h : firstIdx p l = some j) :
    ∃ a, l[j]? = some a ∧ p a = true ∧ ∀ i, i < j → ∀ b, l[i]? = some b → p b = false := by
  induction l generalizing j with
  | nil => simp [firstIdx] at h
  | cons a l ih =>
    by_cases hp : p a = true
    · rw [firstIdx_cons, if_pos hp] at h
      simp only [Option.some.injEq] at h
      subst h
      exact ⟨a, by simp, hp, fun i hi b _ => absurd hi (by omega)⟩
    · rw [firstIdx_cons, if_neg hp] at h
      cases hfi : firstIdx p l with
      | none => rw [hfi] at h; simp at h
      | some j' =>
        rw [hfi] at h
        simp only [Option.map_some', Option.some.injEq] at h
        subst h
        obtain ⟨b, hb, hpb, hlt⟩ := ih j' hfi
        refine ⟨b, by simpa using hb, hpb, ?_⟩
        intro i hi c hc
        cases i with
        | zero =>
          simp at hc
          subst hc
          simpa using hp
        | succ i' => exact hlt i' (by omega) c (by simpa using hc)

theorem firstIdx_eq_some_of {α : Type} (p : α → Bool) (l : List α) (j : Nat) (a : α)
    (hj : l[j]? = some a) (ha : p a = true)
    (hlt : ∀ i, i < j → ∀ b, l[i]? = some b → p b = false) :
    firstIdx p l = some j := by
  induction l generalizing j with
  | nil => simp at hj
  | cons c l ih =>
    cases j with
    | zero =>
      simp at hj
      subst hj
      simp [firstIdx, ha]
    | succ j' =>
      have hc : p c = false := hlt 0 (by omega) c (by simp)
      rw [firstIdx_cons, if_neg (by simp [hc])]
      rw [ih j' (by simpa using hj)
        (fun i hi b hb => hlt (i + 1) (by omega) b (by simpa using hb))]
      rfl

theorem firstIdx_congr {α β : Type} (p : α → Bool) (q : β → Bool)
    (l : List α) (l' : List β) (h : l.map p = l'.map q) :
    firstIdx p l = firstIdx q l' := by
  induction l generalizing l' with
  | nil => cases l' <;> simp_all [firstIdx]
  | cons a l ih =>
    cases l' with
    | nil => simp at h
    | cons b l'2 =>
      simp only [List.map_cons, List.cons.injEq] at h
      simp only [firstIdx, h.1, ih l'2 h.2]

/-! ### Helper lemmas about `List.set`, `List.getD` and `List.countP` -/

theorem getD_set_same {α : Type} (l : List α) (j : Nat) (a d : α) (h : j < l.length) :
    (l.set j a).getD j d = a := by
  induction l generalizing j with
  | nil => simp at h
  | cons c l ih =>
    cases j with
    | zero => simp
    | succ j' => simpa using ih j' (by simpa using h)

theorem getD_set_other {α : Type} (l : List α) (i j : Nat) (a d : α) (h : i ≠ j) :
    (l.set j a).getD i d = l.getD i d := by
  induction l generalizing i j with
  | nil => simp
  | cons c l ih =>
    cases j with
    | zero =>
      cases i with
      | zero => omega
      | succ i' => simp
    | succ j' =>
      cases i with
      | zero => simp
      | succ i' => simpa using ih i' j' (by omega)

theorem getElem?_eq_getD {α : Type} (l : List α) (j : Nat) (d : α) (h : j < l.length) :
    l[j]? = some (l.getD j d) := by
  induction l generalizing j with
  | nil => simp at h
  | cons c l ih =>
    cases j with
    | zero => simp
    | succ j' => simpa using ih j' (by simpa using h)

theorem countP_set_flip_up {α : Type} (p : α → Bool) (l : List α) (j : Nat) (a b : α)
    (hj : l[j]? = some b) (hb : p b = false) (ha : p a = true) :
    (l.set j a).countP p = l.countP p + 1 := by
  induction l generalizing j with
  | nil => simp at hj
  | cons c l ih =>
    cases j with
    | zero =>
      simp at hj
      subst hj
      simp [List.countP_cons, hb, ha]
    | succ j' =>
      simp only [List.set, List.countP_cons]
      rw [ih j' (by simpa using hj)]
      omega

theorem countP_set_flip_down {α : Type} (p : α → Bool) (l : List α) (j : Nat) (a b : α)
    (hj : l[j]? = some b) (hb : p b = true) (ha : p a = false) :
    l.countP p = (l.set j a).countP p + 1 := by
  induction l generalizing j with
  | nil => simp at hj
  | cons c l ih =>
    cases j with
    | zero =>
      simp at hj
      subst hj
      simp [List.countP_cons, hb, ha]
    | succ j' =>
      simp only [List.set, List.countP_cons]
      rw [ih j' (by simpa using hj)]
      omega

theorem getElem?_set_other {α : Type} (l : List α) (i j : Nat) (a : α) (h : i ≠ j) :
    (l.set j a)[i]? = l[i]? := by
  induction l generalizing i j with
  | nil => simp
  | cons c l ih =>
    cases j with
    | zero =>
      cases i with
      | zero => omega
      | succ i' => simp
    | succ j' =>
      cases i with
      | zero => simp
      | succ i' => simpa using ih i' j' (by omega)

theorem getElem?_set_same {α : Type} (l : List α) (j : Nat) (a : α) (h : j < l.length) :
    (l.set j a)[j]? = some a := by
  induction l generalizing j with
  | nil => simp at h
  | cons c l ih =>
    cases j with
    | zero => simp
    | succ j' => simpa using ih j' (by simpa using h)

theorem getElem?_some_lt {α : Type} (l : List α) (j : Nat) (a : α) (h : l[j]? = some a) :
    j < l.length := by
  induction l generalizing j with
  | nil => simp at h
  | cons c l ih =>
    cases j with
    | zero => simp
    | succ j' =>
      exact Nat.succ_lt_succ (ih j' (by simpa using h))

theorem mem_of_getElem?_mem {α : Type} (l : List α) (j : Nat) (a : α) (h : l[j]? = some a) :
    a ∈ l := by
  induction l generalizing j with
  | nil => simp at h
  | cons c l ih =>
    cases j with
    | zero =>
      simp at h
      simp [h]
    | succ j' => exact List.mem_cons_of_mem c (ih j' (by simpa using h))

theorem firstIdx_set_false {α : Type} (p : α → Bool) (l : List α) (j : Nat) (a b : α)
    (hj : l[j]? = some b) (hpb : p b = false) (hpa : p a = false) :
    firstIdx p (l.set j a) = firstIdx p l := by
  induction l generalizing j with
  | nil => simp
  | cons c l ih =>
    cases j with
    | zero =>
      simp at hj
      subst hj
      simp [firstIdx_cons, hpb, hpa]
    | succ j' =>
      simp only [List.set]
      rw [firstIdx_cons, firstIdx_cons, ih j' (by simpa using hj)]

/-! ### Slot-level lemmas about the hashmap operations -/

theorem slotKey_eq_some_iff {K V : Type} (s : Option (K × Option V)) (k : K) :
    slotKey s = some k ↔ ∃ w, s = some (k, w) := by
  cases s with
  | none => simp [slotKey]
  | some kv =>
    cases kv with
    | mk k' w =>
      constructor
      · intro h
        simp [slotKey] at h
        exact ⟨w, by rw [h]⟩
      · intro ⟨w', hw⟩
        simp at hw
        simp [slotKey, hw.1]

theorem mem_liveKeys_iff {K V : Type} (st : State K V) (k : K) :
    k ∈ liveKeys st ↔ ∃ s ∈ st.slots, slotKey s = some k := by
  simp [liveKeys, List.mem_filterMap]

theorem findSlot_eq_none_iff {K V : Type} [DecidableEq K] (st : State K V) (k : K) :
    findSlot st k = none ↔ k ∉ liveKeys st := by
  rw [findSlot, firstIdx_eq_none_iff]
  constructor
  · intro h hk
    obtain ⟨s, hs, hsk⟩ := (mem_liveKeys_iff st k).mp hk
    exact absurd hsk (by simpa using h s hs)
  · intro h s hs
    simp only [decide_eq_false_iff_not]
    intro hsk
    exact h ((mem_liveKeys_iff st k).mpr ⟨s, hs, hsk⟩)

theorem findSlot_spec {K V : Type} [DecidableEq K] (st : State K V) (k : K) (j : Nat)
    (h : findSlot st k = some j) :
    ∃ w, st.slots[j]? = some (some (k, w)) ∧
      ∀ i, i < j → ∀ s, st.slots[i]? = some s → slotKey s ≠ some k := by
  obtain ⟨s, hs, hps, hlt⟩ := firstIdx_spec _ _ _ h
  obtain ⟨w, rfl⟩ := (slotKey_eq_some_iff s k).mp (by simpa using hps)
  exact ⟨w, hs, fun i hi s' hs' => by simpa using hlt i hi s' hs'⟩

theorem freeSlot_spec {K V : Type} (st : State K V) (j : Nat) (h : freeSlot st = some j) :
    st.slots[j]? = some none := by
  obtain ⟨s, hs, hps, _⟩ := firstIdx_spec _ _ _ h
  cases s with
  | none => exact hs
  | some kv => simp at hps

theorem size_le_capacity {K V : Type} (st : State K V) : size st ≤ capacity st :=
  List.countP_le_length _

theorem freeSlot_of_size_lt {K V : Type} (st : State K V) (h : size st < capacity st) :
    ∃ j, freeSlot st = some j := by
  cases hfs : freeSlot st with
  | some j => exact ⟨j, rfl⟩
  | none =>
    exfalso
    have hall : ∀ s ∈ st.slots, s.isSome = true := by
      intro s hs
      have := (firstIdx_eq_none_iff _ _).mp hfs s hs
      cases s <;> simp_all
    have : size st = capacity st := List.countP_eq_length.mpr hall
    omega

/-! ### Case analysis of `insertOne` and preservation lemmas -/

theorem insertOne_dup {K V : Type} [DecidableEq K] (st : State K V) (k : K) (v : Option V)
    (j : Nat) (h : findSlot st k = some j) :
    insertOne st k v = (st, (some (st.gen, j), false)) := by
  simp [insertOne, h]

theorem insertOne_new {K V : Type} [DecidableEq K] (st : State K V) (k : K) (v : Option V)
    (j : Nat) (h1 : findSlot st k = none) (h2 : freeSlot st = some j) :
    insertOne st k v = (setSlot st j (some (k, v)), (some (st.gen, j), true)) := by
  simp [insertOne, h1, h2]

theorem insertOne_exhausted {K V : Type} [DecidableEq K] (st : State K V) (k : K)
    (v : Option V) (h1 : findSlot st k = none) (h2 : freeSlot st = none) :
    insertOne st k v = (st, (none, false)) := by
  simp [insertOne, h1, h2]

theorem gen_insertOne {K V : Type} [DecidableEq K] (st : State K V) (k : K) (v : Option V) :
    (insertOne st k v).1.gen = st.gen := by
  cases hf : findSlot st k with
  | some j => simp [insertOne_dup st k v j hf]
  | none =>
    cases hfs : freeSlot st with
    | some j => simp [insertOne_new st k v j hf hfs, setSlot]
    | none => simp [insertOne_exhausted st k v hf hfs]

theorem capacity_insertOne {K V : Type} [DecidableEq K] (st : State K V) (k : K)
    (v : Option V) : capacity (insertOne st k v).1 = capacity st := by
  cases hf : findSlot st k with
  | some j => simp [insertOne_dup st k v j hf]
  | none =>
    cases hfs : freeSlot st with
    | some j => simp [insertOne_new st k v j hf hfs, setSlot, capacity]
    | none => simp [insertOne_exhausted st k v hf hfs]

theorem size_insertOne {K V : Type} [DecidableEq K] (st : State K V) (k : K) (v : Option V) :
    size (insertOne st k v).1 = size st + (if (insertOne st k v).2.2 then 1 else 0) := by
  cases hf : findSlot st k with
  | some j => simp [insertOne_dup st k v j hf]
  | none =>
    cases hfs : freeSlot st with
    | none => simp [insertOne_exhausted st k v hf hfs]
    | some j =>
      rw [insertOne_new st k v j hf hfs]
      simp only [if_true]
      exact countP_set_flip_up _ _ j _ none (freeSlot_spec st j hfs) (by simp) (by simp)

theorem gen_bulkIns {K V : Type} [DecidableEq K] (st : State K V)
    (kvs : List (K × Option V)) : (bulkIns st kvs).1.gen = st.gen := by
  induction kvs generalizing st with
  | nil => rfl
  | cons kv rest ih =>
    show (bulkIns (insertOne st kv.1 kv.2).1 rest).1.gen = st.gen
    rw [ih, gen_insertOne]

theorem capacity_bulkIns {K V : Type} [DecidableEq K] (st : State K V)
    (kvs : List (K × Option V)) : capacity (bulkIns st kvs).1 = capacity st := by
  induction kvs generalizing st with
  | nil => rfl
  | cons kv rest ih =>
    show capacity (bulkIns (insertOne st kv.1 kv.2).1 rest).1 = capacity st
    rw [ih, capacity_insertOne]

theorem size_bulkIns {K V : Type} [DecidableEq K] (st : State K V)
    (kvs : List (K × Option V)) :
    size (bulkIns st kvs).1 = size st + (bulkIns st kvs).2.countP (fun r => r.2) := by
  induction kvs generalizing st with
  | nil => simp [bulkIns]
  | cons kv rest ih =>
    show size (bulkIns (insertOne st kv.1 kv.2).1 rest).1 =
      size st + List.countP _ ((insertOne st kv.1 kv.2).2 :: (bulkIns (insertOne st kv.1 kv.2).1 rest).2)
    rw [ih, size_insertOne, List.countP_cons]
    cases hm : (insertOne st kv.1 kv.2).2.2 <;> (simp [hm]; try omega)

theorem slots_insertOne_keep {K V : Type} [DecidableEq K] (st : State K V) (k : K)
    (v : Option V) (j : Nat) (s : K × Option V) (h : st.slots[j]? = some (some s)) :
    (insertOne st k v).1.slots[j]? = some (some s) := by
  cases hf : findSlot st k with
  | some j' => simpa [insertOne_dup st k v j' hf] using h
  | none =>
    cases hfs : freeSlot st with
    | none => simpa [insertOne_exhausted st k v hf hfs] using h
    | some j' =>
      rw [insertOne_new st k v j' hf hfs]
      have hne : j ≠ j' := by
        intro he
        rw [he, freeSlot_spec st j' hfs] at h
        simp at h
      show ((setSlot st j' (some (k, v))).slots)[j]? = some (some s)
      rw [setSlot]
      rw [getElem?_set_other _ _ _ _ hne]
      exact h

theorem slots_bulkIns_keep {K V : Type} [DecidableEq K] (st : State K V)
    (kvs : List (K × Option V)) (j : Nat) (s : K × Option V)
    (h : st.slots[j]? = some (some s)) :
    (bulkIns st kvs).1.slots[j]? = some (some s) := by
  induction kvs generalizing st with
  | nil => exact h
  | cons kv rest ih =>
    show (bulkIns (insertOne st kv.1 kv.2).1 rest).1.slots[j]? = some (some s)
    exact ih _ (slots_insertOne_keep st kv.1 kv.2 j s h)

theorem findSlot_insertOne_keep {K V : Type} [DecidableEq K] (st : State K V) (k k' : K)
    (v : Option V) (j : Nat) (h : findSlot st k = some j) :
    findSlot (insertOne st k' v).1 k = some j := by
  by_cases hk : k' = k
  · subst hk
    simpa [insertOne_dup st k' v j h] using h
  · cases hf : findSlot st k' with
    | some j' => simpa [insertOne_dup st k' v j' hf] using h
    | none =>
      cases hfs : freeSlot st with
      | none => simpa [insertOne_exhausted st k' v hf hfs] using h
      | some j' =>
        rw [insertOne_new st k' v j' hf hfs]
        show findSlot (setSlot st j' (some (k', v))) k = some j
        rw [findSlot, setSlot]
        rw [firstIdx_set_false _ _ j' _ none (freeSlot_spec st j' hfs)
          (by simp [slotKey]) (by simp [slotKey, hk])]
        exact h

theorem findSlot_bulkIns_keep {K V : Type} [DecidableEq K] (st : State K V)
    (kvs : List (K × Option V)) (k : K) (j : Nat) (h : findSlot st k = some j) :
    findSlot (bulkIns st kvs).1 k = some j := by
  induction kvs generalizing st with
  | nil => exact h
  | cons kv rest ih =>
    show findSlot (bulkIns (insertOne st kv.1 kv.2).1 rest).1 k = some j
    exact ih _ (findSlot_insertOne_keep st k kv.1 kv.2 j h)

theorem findSlot_setSlot_self {K V : Type} [DecidableEq K] (st : State K V) (k : K)
    (v : Option V) (j : Nat) (hnone : findSlot st k = none)
    (hfree : st.slots[j]? = some none) :
    findSlot (setSlot st j (some (k, v))) k = some j := by
  rw [findSlot]
  apply firstIdx_eq_some_of _ _ _ (some (k, v))
  · simp only [setSlot]
    exact getElem?_set_same _ _ _ (getElem?_some_lt _ _ _ hfree)
  · simp [slotKey]
  · intro i hi b hb
    simp only [setSlot] at hb
    rw [getElem?_set_other _ i j _ (by omega)] at hb
    exact (firstIdx_eq_none_iff _ _).mp hnone b (mem_of_getElem?_mem _ _ _ hb)

/-! ### Live-key bookkeeping -/

theorem filterMap_slotKey_set_free {K V : Type} (l : List (Option (K × Option V)))
    (j : Nat) (k : K) (v : Option V) (h : l[j]? = some none) :
    ((l.set j (some (k, v))).filterMap slotKey).Perm (k :: l.filterMap slotKey) := by
  induction l generalizing j with
  | nil => simp at h
  | cons c l ih =>
    cases j with
    | zero =>
      simp at h
      subst h
      simp [slotKey]
    | succ j' =>
      simp only [List.set]
      cases c with
      | none =>
        simpa [slotKey] using ih j' (by simpa using h)
      | some kv =>
        simp only [List.filterMap_cons, slotKey]
        exact ((ih j' (by simpa using h)).cons kv.1).trans (List.Perm.swap k kv.1 _)

theorem filterMap_slotKey_set_none {K V : Type} (l : List (Option (K × Option V)))
    (j : Nat) (k : K) (w : Option V) (h : l[j]? = some (some (k, w))) :
    (l.filterMap slotKey).Perm (k :: (l.set j none).filterMap slotKey) := by
  induction l generalizing j with
  | nil => simp at h
  | cons c l ih =>
    cases j with
    | zero =>
      simp at h
      subst h
      simp [slotKey]
    | succ j' =>
      simp only [List.set]
      cases c with
      | none =>
        simpa [slotKey] using ih j' (by simpa using h)
      | some kv =>
        simp only [List.filterMap_cons, slotKey]
        exact ((ih j' (by simpa using h)).cons kv.1).trans (List.Perm.swap k kv.1 _)

theorem liveKeys_insertOne_new_perm {K V : Type} [DecidableEq K] (st : State K V) (k : K)
    (v : Option V) (j : Nat) (h1 : findSlot st k = none) (h2 : freeSlot st = some j) :
    (liveKeys (insertOne st k v).1).Perm (k :: liveKeys st) := by
  rw [insertOne_new st k v j h1 h2]
  exact filterMap_slotKey_set_free st.slots j k v (freeSlot_spec st j h2)

theorem mem_liveKeys_insertOne {K V : Type} [DecidableEq K] (st : State K V) (k k' : K)
    (v : Option V) (h : k' ∈ liveKeys (insertOne st k v).1) :
    k' = k ∨ k' ∈ liveKeys st := by
  cases hf : findSlot st k with
  | some j =>
    right
    simpa [insertOne_dup st k v j hf] using h
  | none =>
    cases hfs : freeSlot st with
    | none =>
      right
      simpa [insertOne_exhausted st k v hf hfs] using h
    | some j =>
      have := (liveKeys_insertOne_new_perm st k v j hf hfs).mem_iff.mp h
      simpa using this

theorem nodup_liveKeys_insertOne {K V : Type} [DecidableEq K] (st : State K V) (k : K)
    (v : Option V) (h : (liveKeys st).Nodup) : (liveKeys (insertOne st k v).1).Nodup := by
  cases hf : findSlot st k with
  | some j => simpa [insertOne_dup st k v j hf] using h
  | none =>
    cases hfs : freeSlot st with
    | none => simpa [insertOne_exhausted st k v hf hfs] using h
    | some j =>
      refine ((liveKeys_insertOne_new_perm st k v j hf hfs).nodup_iff).mpr ?_
      exact List.Nodup.cons ((findSlot_eq_none_iff st k).mp hf) h

theorem nodup_liveKeys_bulkIns {K V : Type} [DecidableEq K] (st : State K V)
    (kvs : List (K × Option V)) (h : (liveKeys st).Nodup) :
    (liveKeys (bulkIns st kvs).1).Nodup := by
  induction kvs generalizing st with
  | nil => exact h
  | cons kv rest ih =>
    show (liveKeys (bulkIns (insertOne st kv.1 kv.2).1 rest).1).Nodup
    exact ih _ (nodup_liveKeys_insertOne st kv.1 kv.2 h)

theorem eraseOne_hit {K V : Type} [DecidableEq K] (st : State K V) (k : K) (j : Nat)
    (h : findSlot st k = some j) : eraseOne st k = (setSlot st j none, true) := by
  simp [eraseOne, h]

theorem eraseOne_miss {K V : Type} [DecidableEq K] (st : State K V) (k : K)
    (h : findSlot st k = none) : eraseOne st k = (st, false) := by
  simp [eraseOne, h]

theorem liveKeys_eraseOne_hit_perm {K V : Type} [DecidableEq K] (st : State K V) (k : K)
    (j : Nat) (h : findSlot st k = some j) :
    (liveKeys st).Perm (k :: liveKeys (eraseOne st k).1) := by
  obtain ⟨w, hw, _⟩ := findSlot_spec st k j h
  rw [eraseOne_hit st k j h]
  exact filterMap_slotKey_set_none st.slots j k w hw

theorem nodup_liveKeys_eraseOne {K V : Type} [DecidableEq K] (st : State K V) (k : K)
    (h : (liveKeys st).Nodup) : (liveKeys (eraseOne st k).1).Nodup := by
  cases hf : findSlot st k with
  | none => simpa [eraseOne_miss st k hf] using h
  | some j =>
    have := ((liveKeys_eraseOne_hit_perm st k j hf).nodup_iff).mp h
    exact this.of_cons

theorem not_mem_liveKeys_eraseOne {K V : Type} [DecidableEq K] (st : State K V) (k : K)
    (h : (liveKeys st).Nodup) : k ∉ liveKeys (eraseOne st k).1 := by
  cases hf : findSlot st k with
  | none =>
    rw [eraseOne_miss st k hf]
    exact (findSlot_eq_none_iff st k).mp hf
  | some j =>
    have := ((liveKeys_eraseOne_hit_perm st k j hf).nodup_iff).mp h
    exact (List.nodup_cons.mp this).1

theorem nodup_liveKeys_bulkErase {K V : Type} [DecidableEq K] (st : State K V)
    (ks : List K) (h : (liveKeys st).Nodup) : (liveKeys (bulkErase st ks).1).Nodup := by
  induction ks generalizing st with
  | nil => exact h
  | cons k rest ih =>
    show (liveKeys (bulkErase (eraseOne st k).1 rest).1).Nodup
    exact ih _ (nodup_liveKeys_eraseOne st k h)

theorem liveKeys_fresh {K V : Type} (c : Nat) : liveKeys (fresh K V c) = [] := by
  induction c with
  | zero => rfl
  | succ c _ => simp [fresh, liveKeys, List.replicate, slotKey]

theorem size_fresh {K V : Type} (c : Nat) : size (fresh K V c) = 0 := by
  induction c with
  | zero => rfl
  | succ c _ => simp [fresh, size, List.replicate]

theorem capacity_fresh {K V : Type} (c : Nat) : capacity (fresh K V c) = c := by
  simp [fresh, capacity]

theorem nodup_liveKeys_applyOp {K V : Type} [DecidableEq K] (st : State K V) (op : Op K V)
    (h : (liveKeys st).Nodup) : (liveKeys (applyOp st op)).Nodup := by
  cases op with
  | insert kvs => exact nodup_liveKeys_bulkIns st _ h
  | activate ks => exact nodup_liveKeys_bulkIns st _ h
  | erase ks => exact nodup_liveKeys_bulkErase st _ h

theorem nodup_liveKeys_runOps {K V : Type} [DecidableEq K] (st : State K V)
    (ops : List (Op K V)) (h : (liveKeys st).Nodup) :
    (liveKeys (runOps st ops)).Nodup := by
  induction ops generalizing st with
  | nil => exact h
  | cons op ops ih => exact ih _ (nodup_liveKeys_applyOp st op h)

/-! ### The first-occurrence characterization of insert masks -/

theorem firstOccMaskFrom_congr (s1 s2 : List K) (ks : List K)
    (h : ∀ x, x ∈ s1 ↔ x ∈ s2) :
    firstOccMaskFrom s1 ks = firstOccMaskFrom s2 ks := by
  induction ks generalizing s1 s2 with
  | nil => rfl
  | cons k ks ih =>
    show (decide (k ∉ s1) :: _) = (decide (k ∉ s2) :: _)
    have hd : decide (k ∉ s1) = decide (k ∉ s2) := by
      simp only [decide_eq_decide]
      exact not_congr (h k)
    rw [hd, ih (k :: s1) (k :: s2) (fun x => by simp [h x])]

theorem masks_bulkIns (st : State K V) (kvs : List (K × Option V))
    (hcap : size st + kvs.length ≤ capacity st) :
    (bulkIns st kvs).2.map (fun r => r.2) =
      firstOccMaskFrom (liveKeys st) (kvs.map Prod.fst) := by
  induction kvs generalizing st with
  | nil => rfl
  | cons kv rest ih =>
    show (insertOne st kv.1 kv.2).2.2 :: (bulkIns (insertOne st kv.1 kv.2).1 rest).2.map _ =
      decide (kv.1 ∉ liveKeys st) :: firstOccMaskFrom (kv.1 :: liveKeys st) (rest.map Prod.fst)
    have hcap' : size st + rest.length ≤ capacity st := by
      simp only [List.length_cons] at hcap
      omega
    cases hf : findSlot st kv.1 with
    | some j =>
      have hmem : kv.1 ∈ liveKeys st := by
        by_contra hn
        rw [(findSlot_eq_none_iff st kv.1).mpr hn] at hf
        exact Option.noConfusion hf
      rw [insertOne_dup st kv.1 kv.2 j hf]
      rw [decide_eq_false (not_not_intro hmem)]
      rw [ih st hcap']
      congr 1
      refine firstOccMaskFrom_congr _ _ _ (fun x => ?_)
      constructor
      · exact fun hx => List.mem_cons_of_mem _ hx
      · intro hx
        rcases List.mem_cons.mp hx with he | hm
        · rw [he]
          exact hmem
        · exact hm
    | none =>
      have hnm : kv.1 ∉ liveKeys st := (findSlot_eq_none_iff st kv.1).mp hf
      have hlt : size st < capacity st := by
        simp only [List.length_cons] at hcap
        omega
      obtain ⟨j, hfs⟩ := freeSlot_of_size_lt st hlt
      rw [insertOne_new st kv.1 kv.2 j hf hfs]
      rw [decide_eq_true hnm]
      have hperm := liveKeys_insertOne_new_perm st kv.1 kv.2 j hf hfs
      rw [insertOne_new st kv.1 kv.2 j hf hfs] at hperm
      have hsz : size (setSlot st j (some (kv.1, kv.2))) = size st + 1 :=
        countP_set_flip_up _ _ j _ none (freeSlot_spec st j hfs) (by simp) (by simp)
      have hc2 : capacity (setSlot st j (some (kv.1, kv.2))) = capacity st := by
        simp [setSlot, capacity]
      have hcap2 : size (setSlot st j (some (kv.1, kv.2))) + rest.length ≤
          capacity (setSlot st j (some (kv.1, kv.2))) := by
        rw [hsz, hc2]
        simp only [List.length_cons] at hcap
        omega
      rw [ih _ hcap2]
      congr 1
      exact firstOccMaskFrom_congr _ _ _ (fun x => hperm.mem_iff)

/-- Counting the `true` masks among the occurrences of one key `k`. -/
theorem firstOccMaskFrom_count (seen : List K) (ks : List K) (k : K) :
    ((ks.zip (firstOccMaskFrom seen ks)).countP (fun p => decide (p.1 = k) && p.2)) =
      if k ∈ ks ∧ k ∉ seen then 1 else 0 := by
  induction ks generalizing seen with
  | nil => simp
  | cons k' ks ih =>
    show List.countP _ ((k', decide (k' ∉ seen)) :: ks.zip (firstOccMaskFrom (k' :: seen) ks)) = _
    rw [List.countP_cons, ih (k' :: seen)]
    by_cases hk : k' = k
    · subst hk
      by_cases hs : k' ∈ seen
      · simp [hs]
      · simp [hs]
    · have h1 : (k ∈ k' :: ks ∧ k ∉ seen) ↔ (k ∈ ks ∧ k ∉ seen) := by
        constructor
        · rintro ⟨ha, hb⟩
          refine ⟨?_, hb⟩
          rcases List.mem_cons.mp ha with he | hm
          · exact absurd he.symm hk
          · exact hm
        · rintro ⟨ha, hb⟩
          exact ⟨List.mem_cons_of_mem _ ha, hb⟩
      have h2 : (k ∈ ks ∧ k ∉ k' :: seen) ↔ (k ∈ ks ∧ k ∉ seen) := by
        constructor
        · rintro ⟨ha, hb⟩
          exact ⟨ha, fun hc => hb (List.mem_cons_of_mem _ hc)⟩
        · rintro ⟨ha, hb⟩
          refine ⟨ha, fun hc => ?_⟩
          rcases List.mem_cons.mp hc with he | hm
          · exact hk he.symm
          · exact hb hm
      rw [if_congr h2 rfl rfl, if_congr h1 rfl rfl]
      simp [hk]

/-! ### Per-index linearization of the bulk calls -/

theorem out_bulkIns_linearized (st : State K V) (kvs : List (K × Option V)) (i : Nat)
    (kv : K × Option V) (h : kvs[i]? = some kv) :
    (bulkIns st kvs).2[i]? = some ((insertOne (bulkIns st (kvs.take i)).1 kv.1 kv.2).2) := by
  induction kvs generalizing st i with
  | nil => simp at h
  | cons kv' rest ih =>
    cases i with
    | zero =>
      simp at h
      subst h
      have hun : (bulkIns st (kv' :: rest)).2 =
          (insertOne st kv'.1 kv'.2).2 :: (bulkIns (insertOne st kv'.1 kv'.2).1 rest).2 := rfl
      rw [hun]
      simp [bulkIns]
    | succ i' =>
      have hun : (bulkIns st (kv' :: rest)).2 =
          (insertOne st kv'.1 kv'.2).2 :: (bulkIns (insertOne st kv'.1 kv'.2).1 rest).2 := rfl
      rw [hun]
      simp only [List.getElem?_cons_succ]
      rw [ih _ i' (by simpa using h)]
      rfl

theorem out_bulkErase_linearized (st : State K V) (ks : List K) (i : Nat) (k : K)
    (h : ks[i]? = some k) :
    (bulkErase st ks).2[i]? = some ((eraseOne (bulkErase st (ks.take i)).1 k).2) := by
  induction ks generalizing st i with
  | nil => simp at h
  | cons k' rest ih =>
    cases i with
    | zero =>
      simp at h
      subst h
      have hun : (bulkErase st (k' :: rest)).2 =
          (eraseOne st k').2 :: (bulkErase (eraseOne st k').1 rest).2 := rfl
      rw [hun]
      simp [bulkErase]
    | succ i' =>
      have hun : (bulkErase st (k' :: rest)).2 =
          (eraseOne st k').2 :: (bulkErase (eraseOne st k').1 rest).2 := rfl
      rw [hun]
      simp only [List.getElem?_cons_succ]
      rw [ih _ i' (by simpa using h)]
      rfl

/-! ### Duplicate keys inside one bulk `Insert`/`Activate` -/

theorem outs_at_live_key (st : State K V) (kvs : List (K × Option V)) (k : K) (j : Nat)
    (h : findSlot st k = some j) :
    ∀ p ∈ kvs.zip (bulkIns st kvs).2, p.1.1 = k → p.2 = (some (st.gen, j), false) := by
  induction kvs generalizing st with
  | nil =>
    intro p hp
    simp [bulkIns] at hp
  | cons kv rest ih =>
    intro p hp hpk
    have hun : (kv :: rest).zip (bulkIns st (kv :: rest)).2 =
        (kv, (insertOne st kv.1 kv.2).2) ::
          rest.zip (bulkIns (insertOne st kv.1 kv.2).1 rest).2 := rfl
    rw [hun] at hp
    rcases List.mem_cons.mp hp with he | hm
    · subst he
      simp only at hpk
      rw [hpk] at *
      simp [insertOne_dup st k kv.2 j h]
    · have hkeep : findSlot (insertOne st kv.1 kv.2).1 k = some j :=
        findSlot_insertOne_keep st k kv.1 kv.2 j h
      have := ih (insertOne st kv.1 kv.2).1 hkeep p hm hpk
      rwa [gen_insertOne st kv.1 kv.2] at this

theorem outs_at_new_key (st : State K V) (kvs : List (K × Option V)) (k : K)
    (hnm : k ∉ liveKeys st) (hcap : size st + kvs.length ≤ capacity st)
    (hmem : k ∈ kvs.map Prod.fst) :
    ∃ j, findSlot (bulkIns st kvs).1 k = some j ∧
      ∀ p ∈ kvs.zip (bulkIns st kvs).2, p.1.1 = k → p.2.1 = some (st.gen, j) := by
  induction kvs generalizing st with
  | nil => simp at hmem
  | cons kv rest ih =>
    have hun : (kv :: rest).zip (bulkIns st (kv :: rest)).2 =
        (kv, (insertOne st kv.1 kv.2).2) ::
          rest.zip (bulkIns (insertOne st kv.1 kv.2).1 rest).2 := rfl
    have hstate : (bulkIns st (kv :: rest)).1 = (bulkIns (insertOne st kv.1 kv.2).1 rest).1 := rfl
    by_cases hk : kv.1 = k
    · have hf : findSlot st kv.1 = none := by
        rw [hk]
        exact (findSlot_eq_none_iff st k).mpr hnm
      have hlt : size st < capacity st := by
        simp only [List.length_cons] at hcap
        omega
      obtain ⟨j0, hfs⟩ := freeSlot_of_size_lt st hlt
      have hins := insertOne_new st kv.1 kv.2 j0 hf hfs
      have hfind1 : findSlot (insertOne st kv.1 kv.2).1 k = some j0 := by
        rw [hins, ← hk]
        exact findSlot_setSlot_self st kv.1 kv.2 j0 hf (freeSlot_spec st j0 hfs)
      refine ⟨j0, ?_, ?_⟩
      · rw [hstate]
        exact findSlot_bulkIns_keep _ rest k j0 hfind1
      · intro p hp hpk
        rw [hun] at hp
        rcases List.mem_cons.mp hp with he | hm
        · subst he
          rw [hins]
        · have := outs_at_live_key (insertOne st kv.1 kv.2).1 rest k j0 hfind1 p hm hpk
          rw [this, gen_insertOne st kv.1 kv.2]
    · have hmem1 : k ∈ rest.map Prod.fst := by
        rw [List.map_cons] at hmem
        rcases List.mem_cons.mp hmem with he | hm
        · exact absurd he (fun he2 => hk he2.symm)
        · exact hm
      have hnm1 : k ∉ liveKeys (insertOne st kv.1 kv.2).1 := by
        intro hx
        rcases mem_liveKeys_insertOne st kv.1 k kv.2 hx with he | hm
        · exact hk he.symm
        · exact hnm hm
      have hszle : size (insertOne st kv.1 kv.2).1 ≤ size st + 1 := by
        rw [size_insertOne st kv.1 kv.2]
        cases (insertOne st kv.1 kv.2).2.2 <;> simp
      have hcap1 : size (insertOne st kv.1 kv.2).1 + rest.length ≤
          capacity (insertOne st kv.1 kv.2).1 := by
        rw [capacity_insertOne st kv.1 kv.2]
        simp only [List.length_cons] at hcap
        omega
      obtain ⟨j, hfj, houts⟩ := ih (insertOne st kv.1 kv.2).1 hnm1 hcap1 hmem1
      refine ⟨j, by rw [hstate]; exact hfj, ?_⟩
      intro p hp hpk
      rw [hun] at hp
      rcases List.mem_cons.mp hp with he | hm
      · subst he
        exact absurd hpk hk
      · have := houts p hm hpk
        rwa [gen_insertOne st kv.1 kv.2] at this

theorem countP_zip_map {α β γ δ : Type} (f : α → γ) (g : β → δ) (q : γ → δ → Bool)
    (l : List α) (l' : List β) :
    ((l.map f).zip (l'.map g)).countP (fun p => q p.1 p.2)
      = (l.zip l').countP (fun p => q (f p.1) (g p.2)) := by
  induction l generalizing l' with
  | nil => simp
  | cons a l ih =>
    cases l' with
    | nil => simp
    | cons b l'2 =>
      simp only [List.map_cons, List.zip_cons_cons, List.countP_cons, ih l'2]

/-! ### Round-trip: freshly inserted records are found intact -/

theorem getD_of_getElem? {α : Type} (l : List α) (j : Nat) (a d : α) (h : l[j]? = some a) :
    l.getD j d = a := by
  induction l generalizing j with
  | nil => simp at h
  | cons c l ih =>
    cases j with
    | zero =>
      simp at h
      simp [h]
    | succ j' => simpa using ih j' (by simpa using h)

theorem getElem?_of_getD {α : Type} (l : List (Option α)) (j : Nat) (x : α)
    (h : l.getD j none = some x) : l[j]? = some (some x) := by
  induction l generalizing j with
  | nil => simp at h
  | cons c l ih =>
    cases j with
    | zero =>
      simp at h
      simp [h]
    | succ j' => simpa using ih j' (by simpa using h)

theorem deref_of_slot (st : State K V) (j : Nat) (s : K × Option V)
    (hs : st.slots[j]? = some (some s)) : derefIter st (st.gen, j) = some s := by
  have hgd : st.slots.getD j none = some s := getD_of_getElem? _ _ _ _ hs
  simp [derefIter, validIter, hgd, hs]

theorem bulkIns_fresh_members (st : State K V) (kvs : List (K × Option V))
    (hnodup : (kvs.map Prod.fst).Nodup)
    (hfresh : ∀ kv ∈ kvs, kv.1 ∉ liveKeys st)
    (hcap : size st + kvs.length ≤ capacity st) :
    ∀ kv ∈ kvs, ∃ j, findSlot (bulkIns st kvs).1 kv.1 = some j ∧
      (bulkIns st kvs).1.slots[j]? = some (some kv) := by
  induction kvs generalizing st with
  | nil =>
    intro kv h
    simp at h
  | cons kv0 rest ih =>
    have hstate : (bulkIns st (kv0 :: rest)).1 = (bulkIns (insertOne st kv0.1 kv0.2).1 rest).1 :=
      rfl
    have hf : findSlot st kv0.1 = none :=
      (findSlot_eq_none_iff _ _).mpr (hfresh kv0 (List.mem_cons_self _ _))
    have hlt : size st < capacity st := by
      simp only [List.length_cons] at hcap
      omega
    obtain ⟨j0, hfs⟩ := freeSlot_of_size_lt st hlt
    have hins := insertOne_new st kv0.1 kv0.2 j0 hf hfs
    have hslot1 : (insertOne st kv0.1 kv0.2).1.slots[j0]? = some (some kv0) := by
      rw [hins]
      simp only [setSlot]
      exact getElem?_set_same _ _ _ (getElem?_some_lt _ _ _ (freeSlot_spec st j0 hfs))
    have hfind1 : findSlot (insertOne st kv0.1 kv0.2).1 kv0.1 = some j0 := by
      rw [hins]
      exact findSlot_setSlot_self st kv0.1 kv0.2 j0 hf (freeSlot_spec st j0 hfs)
    intro kv hkv
    rcases List.mem_cons.mp hkv with he | hm
    · subst he
      refine ⟨j0, ?_, ?_⟩
      · rw [hstate]
        exact findSlot_bulkIns_keep _ rest kv.1 j0 hfind1
      · rw [hstate]
        exact slots_bulkIns_keep _ rest j0 kv hslot1
    · have hperm := liveKeys_insertOne_new_perm st kv0.1 kv0.2 j0 hf hfs
      have hnodup1 : (rest.map Prod.fst).Nodup := by
        rw [List.map_cons] at hnodup
        exact hnodup.of_cons
      have hfresh1 : ∀ kv' ∈ rest, kv'.1 ∉ liveKeys (insertOne st kv0.1 kv0.2).1 := by
        intro kv' hkv' hx
        rcases List.mem_cons.mp (hperm.mem_iff.mp hx) with he' | hm'
        · rw [List.map_cons] at hnodup
          have hne : kv0.1 ∉ rest.map Prod.fst := (List.nodup_cons.mp hnodup).1
          rw [← he'] at hne
          exact hne (List.mem_map_of_mem Prod.fst hkv')
        · exact hfresh kv' (List.mem_cons_of_mem _ hkv') hm'
      have hsz : size (insertOne st kv0.1 kv0.2).1 = size st + 1 := by
        rw [hins]
        simp only [setSlot, size]
        exact countP_set_flip_up _ _ j0 _ none (freeSlot_spec st j0 hfs) (by simp) (by simp)
      have hcap1 : size (insertOne st kv0.1 kv0.2).1 + rest.length ≤
          capacity (insertOne st kv0.1 kv0.2).1 := by
        rw [capacity_insertOne, hsz]
        simp only [List.length_cons] at hcap
        omega
      obtain ⟨j, hfj, hsl⟩ := ih (insertOne st kv0.1 kv0.2).1 hnodup1 hfresh1 hcap1 kv hm
      exact ⟨j, by rw [hstate]; exact hfj, by rw [hstate]; exact hsl⟩

/-! ### Erase lemmas -/

theorem eraseOne_mask_iff (st : State K V) (k : K) :
    (eraseOne st k).2 = true ↔ k ∈ liveKeys st := by
  cases hf : findSlot st k with
  | some j =>
    obtain ⟨w, hw, _⟩ := findSlot_spec st k j hf
    simp only [eraseOne_hit st k j hf]
    constructor
    · intro _
      exact (mem_liveKeys_iff st k).mpr
        ⟨some (k, w), mem_of_getElem?_mem _ _ _ hw, by simp [slotKey]⟩
    · intro _
      trivial
  | none =>
    simp only [eraseOne_miss st k hf]
    constructor
    · intro hx
      exact absurd hx (by simp)
    · intro hx
      exact absurd hx ((findSlot_eq_none_iff st k).mp hf)

theorem size_eraseOne (st : State K V) (k : K) :
    size st = size (eraseOne st k).1 + (if (eraseOne st k).2 then 1 else 0) := by
  cases hf : findSlot st k with
  | none => simp [eraseOne_miss st k hf]
  | some j =>
    obtain ⟨w, hw, _⟩ := findSlot_spec st k j hf
    rw [eraseOne_hit st k j hf]
    simp only [if_pos rfl]
    show st.slots.countP _ = (st.slots.set j none).countP _ + 1
    exact countP_set_flip_down _ _ j none _ hw (by simp) (by simp)

theorem size_bulkErase (st : State K V) (ks : List K) :
    size st = size (bulkErase st ks).1 + (bulkErase st ks).2.countP (fun b => b) := by
  induction ks generalizing st with
  | nil => simp [bulkErase]
  | cons k rest ih =>
    show size st = size (bulkErase (eraseOne st k).1 rest).1 +
      List.countP _ ((eraseOne st k).2 :: (bulkErase (eraseOne st k).1 rest).2)
    rw [List.countP_cons]
    have h1 := size_eraseOne st k
    have h2 := ih (eraseOne st k).1
    cases hm : (eraseOne st k).2 <;> (rw [hm] at h1; simp at h1 ⊢; omega)

theorem mem_liveKeys_eraseOne_sub (st : State K V) (k k' : K)
    (h : k' ∈ liveKeys (eraseOne st k).1) : k' ∈ liveKeys st := by
  cases hf : findSlot st k with
  | none =>
    rw [eraseOne_miss st k hf] at h
    exact h
  | some j =>
    have hperm := liveKeys_eraseOne_hit_perm st k j hf
    exact hperm.symm.subset (List.mem_cons_of_mem _ h)

theorem eraseOne_releases (st : State K V) (k : K) (j : Nat)
    (hf : findSlot st k = some j) : (eraseOne st k).1.slots[j]? = some none := by
  obtain ⟨w, hw, _⟩ := findSlot_spec st k j hf
  rw [eraseOne_hit st k j hf]
  simp only [setSlot]
  exact getElem?_set_same _ _ _ (getElem?_some_lt _ _ _ hw)

/-! ### Iterator validity across the operations -/

theorem deref_parts (st : State K V) (it : Iter) (s : K × Option V)
    (h : derefIter st it = some s) :
    it.1 = st.gen ∧ st.slots[it.2]? = some (some s) := by
  rw [derefIter] at h
  by_cases hv : validIter st it = true
  · rw [if_pos hv] at h
    rw [validIter, Bool.and_eq_true, beq_iff_eq] at hv
    exact ⟨hv.1, getElem?_of_getD _ _ _ h⟩
  · rw [if_neg hv] at h
    exact absurd h (by simp)

theorem insertOne_keeps_deref (st : State K V) (k : K) (v : Option V) (it : Iter)
    (s : K × Option V) (h : derefIter st it = some s) :
    derefIter (insertOne st k v).1 it = some s := by
  obtain ⟨hgen, hslot⟩ := deref_parts st it s h
  have hslot' := slots_insertOne_keep st k v it.2 s hslot
  have hgen' : it.1 = (insertOne st k v).1.gen := by rw [gen_insertOne]; exact hgen
  have hit : it = ((insertOne st k v).1.gen, it.2) := by
    cases it
    simp only at hgen' ⊢
    rw [hgen']
  rw [hit]
  exact deref_of_slot _ it.2 s hslot'

theorem bulkIns_keeps_deref (st : State K V) (kvs : List (K × Option V)) (it : Iter)
    (s : K × Option V) (h : derefIter st it = some s) :
    derefIter (bulkIns st kvs).1 it = some s := by
  induction kvs generalizing st with
  | nil => exact h
  | cons kv rest ih =>
    show derefIter (bulkIns (insertOne st kv.1 kv.2).1 rest).1 it = some s
    exact ih _ (insertOne_keeps_deref st kv.1 kv.2 it s h)

theorem eraseOne_keeps_deref_other (st : State K V) (k : K) (it : Iter)
    (s : K × Option V) (h : derefIter st it = some s) (hne : s.1 ≠ k) :
    derefIter (eraseOne st k).1 it = some s := by
  obtain ⟨hgen, hslot⟩ := deref_parts st it s h
  cases hf : findSlot st k with
  | none =>
    rw [eraseOne_miss st k hf]
    exact h
  | some j =>
    obtain ⟨w, hw, _⟩ := findSlot_spec st k j hf
    have hjne : j ≠ it.2 := by
      intro he
      rw [he, hslot] at hw
      simp at hw
      exact hne (by rw [hw])
    rw [eraseOne_hit st k j hf]
    have hslot' : (setSlot st j none).slots[it.2]? = some (some s) := by
      simp only [setSlot]
      rw [getElem?_set_other _ _ _ _ (fun he => hjne he.symm)]
      exact hslot
    have hit : it = ((setSlot st j none).gen, it.2) := by
      cases it
      simp only [setSlot] at hgen ⊢
      rw [hgen]
    rw [hit]
    exact deref_of_slot _ it.2 s hslot'

theorem bulkErase_keeps_deref (st : State K V) (ks : List K) (it : Iter)
    (s : K × Option V) (h : derefIter st it = some s) (hnin : s.1 ∉ ks) :
    derefIter (bulkErase st ks).1 it = some s := by
  induction ks generalizing st with
  | nil => exact h
  | cons k rest ih =>
    show derefIter (bulkErase (eraseOne st k).1 rest).1 it = some s
    have h1 : derefIter (eraseOne st k).1 it = some s :=
      eraseOne_keeps_deref_other st k it s h (fun he => hnin (he ▸ List.mem_cons_self _ _))
    exact ih _ h1 (fun hx => hnin (List.mem_cons_of_mem _ hx))

theorem assignOne_keeps_valid (st : State K V) (it' : Iter) (v : V) (it : Iter)
    (h : validIter st it = true) : validIter (assignOne st it' v) it = true := by
  rw [assignOne]
  cases hgd : st.slots.getD it'.2 none with
  | none => exact h
  | some kv =>
    rw [validIter, Bool.and_eq_true] at h
    rw [validIter, Bool.and_eq_true]
    constructor
    · exact h.1
    · by_cases he : it.2 = it'.2
      · rw [he]
        have hlt : it'.2 < st.slots.length :=
          getElem?_some_lt _ _ _ (getElem?_of_getD _ _ _ hgd)
        simp only [setSlot]
        rw [getD_set_same _ _ _ _ hlt]
        rfl
      · simp only [setSlot]
        rw [getD_set_other _ _ _ _ _ he]
        exact h.2

theorem validIter_of_deref (st : State K V) (it : Iter) (s : K × Option V)
    (h : derefIter st it = some s) : validIter st it = true := by
  rw [derefIter] at h
  by_cases hv : validIter st it = true
  · exact hv
  · rw [if_neg hv] at h
    exact absurd h (by simp)

/-! ### Rehash -/

theorem filterMap_slotKey_replicate (n : Nat) :
    (List.replicate n (none : Option (K × Option V))).filterMap slotKey = [] := by
  induction n with
  | zero => rfl
  | succ n ih => simp only [List.replicate, List.filterMap_cons, slotKey, ih]

theorem countP_isSome_replicate (n : Nat) :
    (List.replicate n (none : Option (K × Option V))).countP (fun s => s.isSome) = 0 := by
  induction n with
  | zero => rfl
  | succ n ih => simp only [List.replicate, List.countP_cons, ih]; rfl

theorem filterMap_slotKey_eq_map_fst (l : List (Option (K × Option V))) :
    l.filterMap slotKey = (l.filterMap id).map Prod.fst := by
  induction l with
  | nil => rfl
  | cons c l ih =>
    cases c with
    | none => simpa [slotKey] using ih
    | some kv => simp [slotKey, ih]

theorem length_records_eq_size (st : State K V) : (records st).length = size st := by
  rw [records, size]
  induction st.slots with
  | nil => rfl
  | cons c l ih =>
    cases c with
    | none => simpa [List.countP_cons] using ih
    | some kv => simp [List.countP_cons, ih]

theorem gen_rehash (st : State K V) (m : Nat) : (rehash st m).gen = st.gen + 1 := by
  rw [rehash, gen_bulkIns]

theorem rehash_preserves_records (st : State K V) (m : Nat)
    (hnodup : (liveKeys st).Nodup) :
    ∀ kv ∈ records st, ∃ j, findSlot (rehash st m) kv.1 = some j ∧
      (rehash st m).slots[j]? = some (some kv) := by
  rw [rehash]
  apply bulkIns_fresh_members
  · rw [records, ← filterMap_slotKey_eq_map_fst]
    exact hnodup
  · intro kv _
    show kv.1 ∉ liveKeys ⟨st.gen + 1, List.replicate (max (2 * size st) m) none⟩
    rw [liveKeys]
    simp only [filterMap_slotKey_replicate]
    exact List.not_mem_nil _
  · show List.countP _ _ + (records st).length ≤ (List.replicate (max (2 * size st) m)
      (none : Option (K × Option V))).length
    rw [countP_isSome_replicate, length_records_eq_size, List.length_replicate]
    have := Nat.le_max_left (2 * size st) m
    omega

theorem mem_liveKeys_bulkIns_sub (st : State K V) (kvs : List (K × Option V)) (k : K)
    (h : k ∈ liveKeys (bulkIns st kvs).1) : k ∈ liveKeys st ∨ k ∈ kvs.map Prod.fst := by
  induction kvs generalizing st with
  | nil => exact Or.inl h
  | cons kv rest ih =>
    have h' : k ∈ liveKeys (bulkIns (insertOne st kv.1 kv.2).1 rest).1 := h
    rcases ih _ h' with h1 | h2
    · rcases mem_liveKeys_insertOne st kv.1 k kv.2 h1 with he | hm
      · exact Or.inr (by rw [he]; exact List.mem_cons_self _ _)
      · exact Or.inl hm
    · exact Or.inr (List.mem_cons_of_mem _ h2)

theorem mem_liveKeys_rehash_sub (st : State K V) (m : Nat) (k : K)
    (h : k ∈ liveKeys (rehash st m)) : k ∈ liveKeys st := by
  rw [rehash] at h
  rcases mem_liveKeys_bulkIns_sub _ _ _ h with h1 | h2
  · rw [liveKeys] at h1
    simp only [filterMap_slotKey_replicate] at h1
    exact absurd h1 (List.not_mem_nil _)
  · rw [records, ← filterMap_slotKey_eq_map_fst] at h2
    exact h2

theorem rehash_invalidates_iter (st : State K V) (m : Nat) (it : Iter)
    (h : validIter st it = true) : validIter (rehash st m) it = false := by
  rw [validIter, Bool.and_eq_true, beq_iff_eq] at h
  rw [validIter, gen_rehash]
  have : (it.1 == st.gen + 1) = false := by
    rw [beq_eq_false_iff_ne, h.1]
    omega
  rw [this]
  rfl

/-! ### Zip helpers -/

theorem zip_map_left_mem {α β γ : Type} (f : α → γ) (l : List α) (l' : List β)
    (p : α × β) (h : p ∈ l.zip l') : (f p.1, p.2) ∈ (l.map f).zip l' := by
  induction l generalizing l' with
  | nil => simp at h
  | cons a l ih =>
    cases l' with
    | nil => simp at h
    | cons b l'2 =>
      rw [List.zip_cons_cons] at h
      rcases List.mem_cons.mp h with he | hm
      · subst he
        rw [List.map_cons, List.zip_cons_cons]
        exact List.mem_cons_self _ _
      · rw [List.map_cons, List.zip_cons_cons]
        exact List.mem_cons_of_mem _ (ih l'2 hm)

theorem zip_map_self_snd {α β : Type} (h : α → β) (l : List α) (p : α × β)
    (hp : p ∈ l.zip (l.map h)) : p.2 = h p.1 := by
  induction l with
  | nil => simp at hp
  | cons a l ih =>
    rw [List.map_cons, List.zip_cons_cons] at hp
    rcases List.mem_cons.mp hp with he | hm
    · rw [he]
    · exact ih hm

theorem map_fst_of_map_pair {K' V' : Type} (l : List (K' × V')) :
    (l.map (fun kv => (kv.1, Option.some kv.2))).map Prod.fst = l.map Prod.fst := by
  induction l with
  | nil => rfl
  | cons kv l ih => simp [ih]

/-! ### Claim theorems for the hashmap -/

/-- C3.  For every bulk `Insert`, per index: a key already live at the index's
linearization point yields `mask = false` and an iterator addressing the
existing record, whose slot (hence its value) is left untouched by the whole
call; a new key with a free slot is stored and yields `mask = true`; each
index's outcome is that of its per-index step run at its linearization state;
and `Size()` grows by exactly the number of true masks. -/
theorem insert_bulk_contract :
    (∀ (st : State K V) (k : K) (v : V) (j : Nat), findSlot st k = some j →
      insertOne st k (some v) = (st, (some (st.gen, j), false)) ∧
      ∃ w, st.slots[j]? = some (some (k, w))) ∧
    (∀ (st : State K V) (k : K) (v : V) (j : Nat),
      findSlot st k = none → freeSlot st = some j →
      (insertOne st k (some v)).2 = (some (st.gen, j), true) ∧
      (insertOne st k (some v)).1.slots[j]? = some (some (k, some v))) ∧
    (∀ (st : State K V) (kvs : List (K × V)) (j : Nat) (s : K × Option V),
      st.slots[j]? = some (some s) → (bulkInsert st kvs).1.slots[j]? = some (some s)) ∧
    (∀ (st : State K V) (kvs : List (K × V)) (i : Nat) (kv : K × V), kvs[i]? = some kv →
      (bulkInsert st kvs).2[i]? =
        some ((insertOne (bulkInsert st (kvs.take i)).1 kv.1 (some kv.2)).2)) ∧
    (∀ (st : State K V) (kvs : List (K × V)),
      size (bulkInsert st kvs).1 = size st + (bulkInsert st kvs).2.countP (fun r => r.2)) := by
  refine ⟨?_, ?_, ?_, ?_, ?_⟩
  · intro st k v j h
    refine ⟨insertOne_dup st k (some v) j h, ?_⟩
    obtain ⟨w, hw, _⟩ := findSlot_spec st k j h
    exact ⟨w, hw⟩
  · intro st k v j h1 h2
    rw [insertOne_new st k (some v) j h1 h2]
    refine ⟨rfl, ?_⟩
    simp only [setSlot]
    exact getElem?_set_same _ _ _ (getElem?_some_lt _ _ _ (freeSlot_spec st j h2))
  · intro st kvs j s h
    exact slots_bulkIns_keep st (kvs.map (fun kv => (kv.1, some kv.2))) j s h
  · intro st kvs i kv h
    have hmap : (kvs.map (fun kv => (kv.1, some kv.2)))[i]? = some (kv.1, some kv.2) := by
      rw [List.getElem?_map, h]
      rfl
    have hlin := out_bulkIns_linearized st (kvs.map (fun kv => (kv.1, some kv.2))) i
      (kv.1, some kv.2) hmap
    rw [← List.map_take] at hlin
    exact hlin
  · intro st kvs
    exact size_bulkIns st _

/-- C4.  Under sufficient slab capacity, the mask vector of a bulk
`Insert`/`Activate` is exactly the first-occurrence mask over the not-yet-live
keys (so `mask[i] = true` iff index `i`'s insert created the record); for a key
`k` not yet live that occurs in the batch, exactly one of the indices carrying
`k` gets `mask = true`, and every index carrying `k` receives an iterator
addressing the one surviving record that holds `k`. -/
theorem duplicate_insert_unique (st : State K V) (kvs : List (K × Option V)) (k : K)
    (hcap : size st + kvs.length ≤ capacity st) :
    ((bulkIns st kvs).2.map (fun r => r.2) =
      firstOccMaskFrom (liveKeys st) (kvs.map Prod.fst)) ∧
    (k ∉ liveKeys st → k ∈ kvs.map Prod.fst →
      (((kvs.map Prod.fst).zip ((bulkIns st kvs).2.map (fun r => r.2))).countP
          (fun p => decide (p.1 = k) && p.2) = 1) ∧
      (∃ j, findSlot (bulkIns st kvs).1 k = some j ∧
        (∃ w, (bulkIns st kvs).1.slots[j]? = some (some (k, w))) ∧
        ∀ p ∈ kvs.zip (bulkIns st kvs).2, p.1.1 = k → p.2.1 = some (st.gen, j))) := by
  constructor
  · exact masks_bulkIns st kvs hcap
  · intro hnm hmem
    constructor
    · rw [masks_bulkIns st kvs hcap, firstOccMaskFrom_count]
      rw [if_pos ⟨hmem, hnm⟩]
    · obtain ⟨j, hfj, houts⟩ := outs_at_new_key st kvs k hnm hcap hmem
      refine ⟨j, hfj, ?_, houts⟩
      obtain ⟨w, hw, _⟩ := findSlot_spec _ k j hfj
      exact ⟨w, hw⟩

/-- C5.  Starting from a freshly constructed hashmap, after every sequence of
bulk `Insert`/`Activate`/`Erase` calls the live records carry pairwise distinct
keys (and since every such sequence's prefixes are again such sequences, the
invariant holds after each call). -/
theorem no_duplicate_keys_invariant (c : Nat) (ops : List (Op K V)) :
    (liveKeys (runOps (fresh K V c) ops)).Nodup := by
  apply nodup_liveKeys_runOps
  rw [liveKeys_fresh]
  exact List.nodup_nil

/-- C6.  Round-trip: pairwise distinct keys, fresh to the table, inserted under
sufficient capacity are all found again (`mask = true`) and unpacking the
returned iterator at each index yields exactly that index's key and value. -/
theorem insert_find_unpack_round_trip (st : State K V) (kvs : List (K × V))
    (hnodup : (kvs.map Prod.fst).Nodup)
    (hfresh : ∀ kv ∈ kvs, kv.1 ∉ liveKeys st)
    (hcap : size st + kvs.length ≤ capacity st) :
    ∀ p ∈ kvs.zip (bulkFind (bulkInsert st kvs).1 (kvs.map Prod.fst)),
      p.2.2 = true ∧
      unpackOne (bulkInsert st kvs).1 p.2.1 = some (p.1.1, some p.1.2) := by
  intro p hp
  have hmapeq : bulkFind (bulkInsert st kvs).1 (kvs.map Prod.fst)
      = kvs.map (fun kv => findOne (bulkInsert st kvs).1 kv.1) := by
    rw [bulkFind, List.map_map]
    rfl
  rw [hmapeq] at hp
  have hsnd : p.2 = findOne (bulkInsert st kvs).1 p.1.1 :=
    zip_map_self_snd _ kvs p hp
  have hmem : p.1 ∈ kvs := (List.of_mem_zip hp).1
  have hmm : (p.1.1, some p.1.2) ∈ kvs.map (fun kv => (kv.1, some kv.2)) :=
    List.mem_map_of_mem _ hmem
  have hnodup' : ((kvs.map (fun kv => (kv.1, some kv.2))).map Prod.fst).Nodup := by
    rw [map_fst_of_map_pair]
    exact hnodup
  have hfresh' : ∀ kv' ∈ kvs.map (fun kv => (kv.1, some kv.2)), kv'.1 ∉ liveKeys st := by
    intro kv' hkv'
    obtain ⟨kv, hkv, rfl⟩ := List.mem_map.mp hkv'
    exact hfresh kv hkv
  have hcap' : size st + (kvs.map (fun kv => (kv.1, some kv.2))).length ≤ capacity st := by
    rw [List.length_map]
    exact hcap
  obtain ⟨j, hfj, hsl⟩ := bulkIns_fresh_members st _ hnodup' hfresh' hcap'
    (p.1.1, some p.1.2) hmm
  have hfo : findOne (bulkInsert st kvs).1 p.1.1 =
      (some ((bulkInsert st kvs).1.gen, j), true) := by
    rw [findOne]
    rw [show findSlot (bulkInsert st kvs).1 p.1.1 = some j from hfj]
  constructor
  · rw [hsnd, hfo]
  · rw [hsnd, hfo]
    show ((some ((bulkInsert st kvs).1.gen, j)).bind (derefIter (bulkInsert st kvs).1)) = _
    rw [Option.some_bind]
    exact deref_of_slot _ j _ hsl

/-- C7.  For every bulk `Erase`, per index: the mask is true iff the key was
live at that index's linearization point, in which case the slot is released;
each index's outcome is that of its per-index step at its linearization state;
`Size()` shrinks by exactly the number of true masks; and erasing the same key
in two consecutive bulk calls yields `mask = false` the second time. -/
theorem erase_bulk_contract :
    (∀ (st : State K V) (k : K), (eraseOne st k).2 = true ↔ k ∈ liveKeys st) ∧
    (∀ (st : State K V) (k : K) (j : Nat), findSlot st k = some j →
      eraseOne st k = (setSlot st j none, true) ∧
      (eraseOne st k).1.slots[j]? = some none) ∧
    (∀ (st : State K V) (ks : List K) (i : Nat) (k : K), ks[i]? = some k →
      (bulkErase st ks).2[i]? = some ((eraseOne (bulkErase st (ks.take i)).1 k).2)) ∧
    (∀ (st : State K V) (ks : List K),
      size st = size (bulkErase st ks).1 + (bulkErase st ks).2.countP (fun b => b)) ∧
    (∀ (st : State K V) (k : K), (liveKeys st).Nodup →
      (bulkErase (bulkErase st [k]).1 [k]).2 = [false]) := by
  refine ⟨?_, ?_, ?_, ?_, ?_⟩
  · exact eraseOne_mask_iff
  · intro st k j h
    exact ⟨eraseOne_hit st k j h, eraseOne_releases st k j h⟩
  · exact out_bulkErase_linearized
  · exact size_bulkErase
  · intro st k hnd
    have h1 : (bulkErase st [k]).1 = (eraseOne st k).1 := rfl
    have h2 : (bulkErase (eraseOne st k).1 [k]).2 = [(eraseOne (eraseOne st k).1 k).2] := rfl
    rw [h1, h2]
    have hnm : k ∉ liveKeys (eraseOne st k).1 := not_mem_liveKeys_eraseOne st k hnd
    cases hmask : (eraseOne (eraseOne st k).1 k).2 with
    | false => rfl
    | true => exact absurd ((eraseOne_mask_iff _ k).mp hmask) hnm

/-- C8 counterexample.  Erase, not only Rehash, invalidates an iterator: a
record is inserted, its iterator is valid, and after a bulk `Erase` (no rehash
involved) that iterator is invalid. -/
theorem erase_invalidates_iterator_counterexample :
    validIter (bulkInsert (fresh Nat Nat 1) [(5, 7)]).1 (0, 0) = true ∧
    validIter (bulkErase (bulkInsert (fresh Nat Nat 1) [(5, 7)]).1 [5]).1 (0, 0) = false := by
  decide

/-- C8 (amended).  `Rehash(m)` preserves the live set exactly — every live
record is found afterwards with `mask = true` and unpacks to the same key and
value, and no key appears that was not live — while every iterator valid
before the rehash is invalid after it.  Apart from `Rehash`, only `Erase`
invalidates iterators, and only those of the records it erases:
`Insert`/`Activate` and `AssignIterators` preserve every valid iterator, and
`Erase` preserves every iterator whose record's key it does not erase. -/
theorem rehash_iterator_contract :
    (∀ (st : State K V) (m : Nat), (liveKeys st).Nodup →
      ∀ kv ∈ records st, ∃ j, findOne (rehash st m) kv.1 = (some ((rehash st m).gen, j), true) ∧
        unpackOne (rehash st m) (some ((rehash st m).gen, j)) = some kv) ∧
    (∀ (st : State K V) (m : Nat) (k : K), k ∈ liveKeys (rehash st m) → k ∈ liveKeys st) ∧
    (∀ (st : State K V) (m : Nat) (it : Iter),
      validIter st it = true → validIter (rehash st m) it = false) ∧
    (∀ (st : State K V) (kvs : List (K × Option V)) (it : Iter) (s : K × Option V),
      derefIter st it = some s → derefIter (bulkIns st kvs).1 it = some s) ∧
    (∀ (st : State K V) (ks : List K) (it : Iter) (s : K × Option V),
      derefIter st it = some s → s.1 ∉ ks → derefIter (bulkErase st ks).1 it = some s) ∧
    (∀ (st : State K V) (it' : Iter) (v : V) (it : Iter),
      validIter st it = true → validIter (assignOne st it' v) it = true) := by
  refine ⟨?_, mem_liveKeys_rehash_sub, rehash_invalidates_iter, bulkIns_keeps_deref,
    bulkErase_keeps_deref, assignOne_keeps_valid⟩
  intro st m hnd kv hkv
  obtain ⟨j, hfj, hsl⟩ := rehash_preserves_records st m hnd kv hkv
  refine ⟨j, ?_, ?_⟩
  · rw [findOne, show findSlot (rehash st m) kv.1 = some j from hfj]
  · show ((some ((rehash st m).gen, j)).bind (derefIter (rehash st m))) = some kv
    rw [Option.some_bind]
    exact deref_of_slot _ j _ hsl

/-! ### Witnesses at concrete instances -/

/-- C3 witness over a two-slot table holding `5 ↦ 7`: re-inserting key `5`
reports the existing record untouched; inserting the new key `6` claims slot 1;
an in-batch duplicate's outcome is its linearization step's outcome. -/
theorem insert_bulk_contract_witness :
    (insertOne (bulkInsert (fresh Nat Nat 2) [(5, 7)]).1 5 (some 9) =
      ((bulkInsert (fresh Nat Nat 2) [(5, 7)]).1,
        (some ((bulkInsert (fresh Nat Nat 2) [(5, 7)]).1.gen, 0), false)) ∧
      ∃ w, (bulkInsert (fresh Nat Nat 2) [(5, 7)]).1.slots[0]? = some (some (5, w))) ∧
    ((insertOne (bulkInsert (fresh Nat Nat 2) [(5, 7)]).1 6 (some 9)).2 =
      (some ((bulkInsert (fresh Nat Nat 2) [(5, 7)]).1.gen, 1), true) ∧
      (insertOne (bulkInsert (fresh Nat Nat 2) [(5, 7)]).1 6 (some 9)).1.slots[1]? =
        some (some (6, some 9))) ∧
    ((bulkInsert (bulkInsert (fresh Nat Nat 2) [(5, 7)]).1 [(6, 1)]).1.slots[0]? =
      some (some (5, some 7))) ∧
    ((bulkInsert (fresh Nat Nat 2) [(5, 7), (5, 8)]).2[1]? =
      some ((insertOne (bulkInsert (fresh Nat Nat 2) ([(5, 7), (5, 8)].take 1)).1
        5 (some 8)).2)) :=
  ⟨insert_bulk_contract.1 (bulkInsert (fresh Nat Nat 2) [(5, 7)]).1 5 9 0 (by decide),
    insert_bulk_contract.2.1 (bulkInsert (fresh Nat Nat 2) [(5, 7)]).1 6 9 1
      (by decide) (by decide),
    insert_bulk_contract.2.2.1 (bulkInsert (fresh Nat Nat 2) [(5, 7)]).1 [(6, 1)] 0
      (5, some 7) (by decide),
    insert_bulk_contract.2.2.2.1 (fresh Nat Nat 2) [(5, 7), (5, 8)] 1 (5, 8) (by decide)⟩

/-- C4 witness: inserting `[5, 5, 5]` into an empty four-slot table yields the
first-occurrence mask `[true, false, false]`, with exactly one true bit. -/
theorem duplicate_insert_unique_witness :
    ((bulkIns (fresh Nat Nat 4) [(5, some 1), (5, some 2), (5, some 3)]).2.map
        (fun r => r.2) =
      firstOccMaskFrom (liveKeys (fresh Nat Nat 4))
        ([(5, some 1), (5, some 2), (5, some 3)].map Prod.fst)) ∧
    ((([(5, some 1), (5, some 2), (5, some 3)].map Prod.fst).zip
        ((bulkIns (fresh Nat Nat 4) [(5, some 1), (5, some 2), (5, some 3)]).2.map
          (fun r => r.2))).countP (fun p => decide (p.1 = 5) && p.2) = 1) := by
  have h := duplicate_insert_unique (fresh Nat Nat 4)
    [(5, some 1), (5, some 2), (5, some 3)] 5 (by decide)
  exact ⟨h.1, (h.2 (by decide) (by decide)).1⟩

/-- C6 witness: after inserting `{100 ↦ 1, 300 ↦ 3}` into an empty table,
finding key `100` succeeds and unpacking its iterator returns `(100, 1)`. -/
theorem insert_find_unpack_round_trip_witness :
    (true : Bool) = true ∧
    unpackOne (bulkInsert (fresh Nat Nat 3) [(100, 1), (300, 3)]).1 (some (0, 0)) =
      some (100, some 1) :=
  insert_find_unpack_round_trip (fresh Nat Nat 3) [(100, 1), (300, 3)]
    (by decide) (by decide) (by decide) ((100, 1), (some (0, 0), true)) (by decide)

/-- C7 witness over the table holding `5 ↦ 7`: erasing key `5` releases slot 0
with `mask = true`; a second consecutive erase of `5` reports `false`; an
in-batch erase outcome is its linearization step's outcome. -/
theorem erase_bulk_contract_witness :
    (eraseOne (bulkInsert (fresh Nat Nat 2) [(5, 7)]).1 5 =
      (setSlot (bulkInsert (fresh Nat Nat 2) [(5, 7)]).1 0 none, true) ∧
      (eraseOne (bulkInsert (fresh Nat Nat 2) [(5, 7)]).1 5).1.slots[0]? = some none) ∧
    ((bulkErase (bulkInsert (fresh Nat Nat 2) [(5, 7)]).1 [5, 5]).2[1]? =
      some ((eraseOne (bulkErase (bulkInsert (fresh Nat Nat 2) [(5, 7)]).1
        ([5, 5].take 1)).1 5).2)) ∧
    ((bulkErase (bulkErase (bulkInsert (fresh Nat Nat 2) [(5, 7)]).1 [5]).1 [5]).2 =
      [false]) :=
  ⟨erase_bulk_contract.2.1 (bulkInsert (fresh Nat Nat 2) [(5, 7)]).1 5 0 (by decide),
    erase_bulk_contract.2.2.1 (bulkInsert (fresh Nat Nat 2) [(5, 7)]).1 [5, 5] 1 5
      (by decide),
    erase_bulk_contract.2.2.2.2 (bulkInsert (fresh Nat Nat 2) [(5, 7)]).1 5 (by decide)⟩

/-- C8 witness over the table holding `5 ↦ 7` (record at slot 0, generation 0):
rehashing preserves the record and is found again; rehashing invalidates the
old iterator; insert, erase-of-another-key and assign all preserve it. -/
theorem rehash_iterator_contract_witness :
    (∃ j, findOne (rehash (bulkInsert (fresh Nat Nat 2) [(5, 7)]).1 2) 5 =
        (some ((rehash (bulkInsert (fresh Nat Nat 2) [(5, 7)]).1 2).gen, j), true) ∧
      unpackOne (rehash (bulkInsert (fresh Nat Nat 2) [(5, 7)]).1 2)
        (some ((rehash (bulkInsert (fresh Nat Nat 2) [(5, 7)]).1 2).gen, j)) =
        some (5, some 7)) ∧
    validIter (rehash (bulkInsert (fresh Nat Nat 2) [(5, 7)]).1 2) (0, 0) = false ∧
    derefIter (bulkIns (bulkInsert (fresh Nat Nat 2) [(5, 7)]).1 [(6, some 1)]).1 (0, 0) =
      some (5, some 7) ∧
    derefIter (bulkErase (bulkInsert (fresh Nat Nat 2) [(5, 7)]).1 [6]).1 (0, 0) =
      some (5, some 7) ∧
    validIter (assignOne (bulkInsert (fresh Nat Nat 2) [(5, 7)]).1 (0, 0) 9) (0, 0) =
      true :=
  ⟨rehash_iterator_contract.1 (bulkInsert (fresh Nat Nat 2) [(5, 7)]).1 2 (by decide)
      (5, some 7) (by decide),
    rehash_iterator_contract.2.2.1 (bulkInsert (fresh Nat Nat 2) [(5, 7)]).1 2 (0, 0)
      (by decide),
    rehash_iterator_contract.2.2.2.1 (bulkInsert (fresh Nat Nat 2) [(5, 7)]).1
      [(6, some 1)] (0, 0) (5, some 7) (by decide),
    rehash_iterator_contract.2.2.2.2.1 (bulkInsert (fresh Nat Nat 2) [(5, 7)]).1 [6]
      (0, 0) (5, some 7) (by decide) (by decide),
    rehash_iterator_contract.2.2.2.2.2 (bulkInsert (fresh Nat Nat 2) [(5, 7)]).1 (0, 0)
      9 (0, 0) (by decide)⟩

end HM

namespace PC

/-! ### Voxel downsampling -/

theorem maskSelect_cons {α : Type} (x : α) (xs : List α) (b : Bool) (bs : List Bool) :
    maskSelect (x :: xs) (b :: bs) =
      if b then x :: maskSelect xs bs else maskSelect xs bs := by
  rw [maskSelect, maskSelect, List.zip_cons_cons, List.filter_cons]
  cases b <;> simp

theorem maskSelect_firstOcc {α : Type} [DecidableEq α] (seen : List α) (l : List α) :
    maskSelect l (HM.firstOccMaskFrom seen l) = dedupFirstAux seen l := by
  induction l generalizing seen with
  | nil => rfl
  | cons a l ih =>
    show maskSelect (a :: l) (decide (a ∉ seen) :: HM.firstOccMaskFrom (a :: seen) l)
      = dedupFirstAux seen (a :: l)
    rw [maskSelect_cons]
    by_cases ha : a ∈ seen
    · rw [decide_eq_false (not_not_intro ha)]
      rw [if_neg (by simp)]
      rw [HM.firstOccMaskFrom_congr (a :: seen) seen l
        (fun x => by simp [List.mem_cons]; intro hx; rw [hx]; exact ha)]
      rw [ih seen]
      rw [show dedupFirstAux seen (a :: l) = dedupFirstAux seen l from by
        rw [dedupFirstAux]; exact if_pos ha]
    · rw [decide_eq_true ha]
      rw [if_pos rfl]
      rw [ih (a :: seen)]
      rw [show dedupFirstAux seen (a :: l) = a :: dedupFirstAux (a :: seen) l from by
        rw [dedupFirstAux]; exact if_neg ha]

theorem unique_keepMask (keys : List IVec3) :
    (unique keys).2 = HM.firstOccMaskFrom [] keys := by
  show ((HM.bulkInsert (HM.fresh IVec3 Nat keys.length)
    (keys.zip (List.range keys.length))).2.map (fun r => r.2)) = _
  have hcap : HM.size (HM.fresh IVec3 Nat keys.length) +
      ((keys.zip (List.range keys.length)).map (fun kv => (kv.1, some kv.2))).length ≤
      HM.capacity (HM.fresh IVec3 Nat keys.length) := by
    rw [HM.size_fresh, HM.capacity_fresh, List.length_map, List.length_zip,
      List.length_range]
    omega
  have h := HM.masks_bulkIns (HM.fresh IVec3 Nat keys.length)
    ((keys.zip (List.range keys.length)).map (fun kv => (kv.1, some kv.2))) hcap
  rw [HM.liveKeys_fresh] at h
  rw [HM.map_fst_of_map_pair] at h
  rw [List.map_fst_zip keys (List.range keys.length) (by simp)] at h
  exact h

theorem voxelDownSample_eq_dedup (pts : List Vec3) (v : ℚ) :
    voxelDownSample pts v = (dedupFirst (pts.map (quantize v))).map iCast := by
  show (maskSelect (unique (pts.map (quantize v))).1
    (unique (pts.map (quantize v))).2).map iCast = _
  rw [show (unique (pts.map (quantize v))).1 = pts.map (quantize v) from rfl]
  rw [unique_keepMask]
  rw [maskSelect_firstOcc]
  rfl

/-- C9.  The "points" stored by `VoxelDownSample` are the deduplicated
quantized integer voxel keys cast to `Float32` — the keep-mask applied to the
`Unique` coordinates, which keeps the first occurrence of each key — and on
concrete inputs they differ both from the original input coordinates and from
the keys rescaled by `voxel_size`. -/
theorem voxel_downsample_points_are_keys :
    (∀ (pts : List Vec3) (v : ℚ),
      voxelDownSample pts v = (dedupFirst (pts.map (quantize v))).map iCast) ∧
    decide (voxelDownSample [((1 : ℚ)/2, 0, 0)] 1 = [((1 : ℚ)/2, 0, 0)]) = false ∧
    decide (voxelDownSample [((3 : ℚ), 0, 0)] 2 = [((2 : ℚ), 0, 0)]) = false := by
  refine ⟨voxelDownSample_eq_dedup, decide_eq_false ?_, decide_eq_false ?_⟩
  · rw [voxelDownSample_eq_dedup]
    norm_num [quantize, toInt64, dedupFirst, dedupFirstAux, iCast, Prod.ext_iff]
  · rw [voxelDownSample_eq_dedup]
    norm_num [quantize, toInt64, dedupFirst, dedupFirstAux, iCast, Prod.ext_iff]

/-! ### The voxel key computation (C1) -/

/-- C1 counterexample.  At the point `(-1/20, 0, 0)` with `voxel_size = 1/10 > 0`
the quotient is `-1/2`; the source's key (the `int64` cast of the quotient) is
`(0,0,0)`, rounded toward zero, whereas `floor` gives `(-1,0,0)` — so the keys
are not `floor(points / voxel_size)`. -/
theorem voxel_key_floor_counterexample :
    0 < ((1 : ℚ)/10) ∧
    quantize ((1 : ℚ)/10) (-(1/20), 0, 0) = (0, 0, 0) ∧
    quantizeFloor ((1 : ℚ)/10) (-(1/20), 0, 0) = (-1, 0, 0) ∧
    voxelDownSample [(-(1/20 : ℚ), 0, 0)] ((1 : ℚ)/10) = [((0 : ℚ), 0, 0)] := by
  refine ⟨by norm_num, ?_, ?_, ?_⟩
  · norm_num [quantize, toInt64, Prod.ext_iff]
  · norm_num [quantizeFloor, Prod.ext_iff]
  · rw [voxelDownSample_eq_dedup]
    norm_num [quantize, toInt64, dedupFirst, dedupFirstAux, iCast]

/-- C1 (amended).  `VoxelDownSample` computes each key coordinate as the `int64`
cast of `coordinate / voxel_size`, which rounds toward zero: it equals the
floor for nonnegative quotients, the ceiling for negative ones, and exceeds the
floor by one at negative non-integer quotients — so negative coordinates are
rounded toward zero, not toward negative infinity. -/
theorem voxel_key_toward_zero :
    (∀ (v : ℚ) (p : Vec3), quantize v p =
      (toInt64 (p.1 / v), toInt64 (p.2.1 / v), toInt64 (p.2.2 / v))) ∧
    (∀ c v : ℚ, 0 < v → 0 ≤ c → toInt64 (c / v) = ⌊c / v⌋) ∧
    (∀ c v : ℚ, 0 < v → c < 0 → toInt64 (c / v) = ⌈c / v⌉) ∧
    (∀ c v : ℚ, 0 < v → c < 0 → (∀ n : ℤ, (n : ℚ) ≠ c / v) →
      toInt64 (c / v) = ⌊c / v⌋ + 1) := by
  refine ⟨fun v p => rfl, ?_, ?_, ?_⟩
  · intro c v hv hc
    rw [toInt64, if_pos (div_nonneg hc (le_of_lt hv))]
  · intro c v hv hc
    rw [toInt64, if_neg (not_le.mpr (div_neg_of_neg_of_pos hc hv))]
  · intro c v hv hc hni
    rw [toInt64, if_neg (not_le.mpr (div_neg_of_neg_of_pos hc hv))]
    have h1 : ⌈c / v⌉ ≤ ⌊c / v⌋ + 1 := Int.ceil_le_floor_add_one _
    have h2 : ⌊c / v⌋ < ⌈c / v⌉ := by
      have hlt : ((⌊c / v⌋ : ℤ) : ℚ) < c / v := by
        rcases lt_or_eq_of_le (Int.floor_le (c / v)) with h | h
        · exact h
        · exact absurd h (hni ⌊c / v⌋)
      have hle : c / v ≤ ((⌈c / v⌉ : ℤ) : ℚ) := Int.le_ceil _
      exact_mod_cast lt_of_lt_of_le hlt hle
    omega

/-- C1 amended-claim witness at `c = 3, -3` and `v = 2`. -/
theorem voxel_key_toward_zero_witness :
    toInt64 ((3 : ℚ) / 2) = ⌊(3 : ℚ) / 2⌋ ∧
    toInt64 ((-3 : ℚ) / 2) = ⌈(-3 : ℚ) / 2⌉ ∧
    toInt64 ((-3 : ℚ) / 2) = ⌊(-3 : ℚ) / 2⌋ + 1 := by
  refine ⟨voxel_key_toward_zero.2.1 3 2 (by norm_num) (by norm_num),
    voxel_key_toward_zero.2.2.1 (-3) 2 (by norm_num) (by norm_num),
    voxel_key_toward_zero.2.2.2 (-3) 2 (by norm_num) (by norm_num) ?_⟩
  intro n hn
  have h2 : (n : ℚ) * 2 = -3 := by
    rw [hn]
    norm_num
  have h3 : (n * 2 : ℤ) = -3 := by exact_mod_cast h2
  omega

/-! ### The two constructors (C2) -/

/-- C2.  The two constructors do not apply the same check: the tensor
constructor tests `shape[1] == 3` while the dictionary constructor tests
`shape[0] == 3`.  A valid `(5, 3)` point set passes the tensor constructor but
makes the dictionary constructor raise, and an invalid `(3, 5)` set passes the
dictionary constructor while the tensor constructor raises — matching the
source's own error message, which promises `(N, 3)` points in both places. -/
theorem ctor_shape_checks_diverge :
    pointCloudFromTensor ⟨List.replicate 5 [0, 0, 0]⟩ =
      Except.ok [("points", ⟨List.replicate 5 [0, 0, 0]⟩)] ∧
    pointCloudFromDict [("points", ⟨List.replicate 5 [0, 0, 0]⟩)] =
      Except.error "PointCloud must be constructed from (N, 3) points." ∧
    pointCloudFromDict [("points", ⟨List.replicate 3 (List.replicate 5 (0 : ℚ))⟩)] =
      Except.ok [("points", ⟨List.replicate 3 (List.replicate 5 (0 : ℚ))⟩)] ∧
    pointCloudFromTensor ⟨List.replicate 3 (List.replicate 5 (0 : ℚ))⟩ =
      Except.error "PointCloud must be constructed from (N, 3) points." := by
  refine ⟨rfl, rfl, rfl, rfl⟩

/-! ### Dictionary access (C10) -/

/-- C10.  `operator[]` on a missing key fails with an error and leaves the
dictionary unchanged (no default entry is inserted); on a present key it
returns the stored list, likewise leaving the dictionary unchanged. -/
theorem op_index_contract (pc : PointDict) (key : String) :
    (pc.lookup key = none →
      opIndex pc key =
        (Except.error ("Unknown key " ++ key ++ " in PointCloud point_dict_."), pc)) ∧
    (∀ t, pc.lookup key = some t → opIndex pc key = (Except.ok t, pc)) := by
  constructor
  · intro h
    rw [opIndex, h]
  · intro t h
    rw [opIndex, h]

/-- C10 witness on a one-entry dictionary: the absent key `"colors"` errors and
the dictionary is unchanged; the present key `"points"` returns its list. -/
theorem op_index_contract_witness :
    opIndex [("points", (⟨[[1, 2, 3]]⟩ : PtTensor))] "colors" =
      (Except.error ("Unknown key " ++ "colors" ++ " in PointCloud point_dict_."),
        [("points", (⟨[[1, 2, 3]]⟩ : PtTensor))]) ∧
    opIndex [("points", (⟨[[1, 2, 3]]⟩ : PtTensor))] "points" =
      (Except.ok (⟨[[1, 2, 3]]⟩ : PtTensor), [("points", (⟨[[1, 2, 3]]⟩ : PtTensor))]) := by
  exact ⟨(op_index_contract [("points", ⟨[[1, 2, 3]]⟩)] "colors").1 (by decide),
    (op_index_contract [("points", ⟨[[1, 2, 3]]⟩)] "points").2 ⟨[[1, 2, 3]]⟩ (by decide)⟩

end PC

end Open3D
